import Mathlib

/-!
# Verification of the storage subsystem of `linux-storage-manager`

This file gives a shallow embedding, in Lean 4, of the archive/trash storage
subsystem of the repository (modules `archive_manager.py`, `trash_manager.py`,
`storage_manager.py`, `restore_manager.py`), and proves or refutes the frozen
claims about it.

Modelling conventions:
* modification times (`st_mtime`) are integers, in seconds;
* a Python `dict` built by insertion is an association list whose keys appear
  in first-insertion order (Python dicts preserve insertion order);
* Python float arithmetic on sizes/percentages is modelled with `ℚ`;
* effectful procedures are modelled as pure functions over an explicit state,
  parameterised by boolean oracles for the outcome of each fallible
  filesystem step (a caught per-item exception is the oracle answering
  `false` for that item).
-/

namespace StorageSpec

/-- Keys of a Python dict built by repeated insertion, in first-insertion
order: the first occurrence of each element of `l`, in order. -/
def firstSeenKeys {α : Type} [DecidableEq α] (l : List α) : List α :=
  l.foldl (fun acc k => if k ∈ acc then acc else acc ++ [k]) []

/-! ## `ArchiveManager.scan_old_reports` (archive_manager.py, lines 36-137) -/

/-- One file found under `reports/<category>/<subdir>/`, with the metadata the
scanner collects (archive_manager.py lines 73-87). -/
structure ReportFile where
  path : String
  category : String
  subdir : String
  size : Nat
  mtime : Int
deriving DecidableEq, Repr

def secondsPerDay : Int := 86400

/-- Truncation of an mtime to its calendar date
(`datetime.fromtimestamp(...).date()`, line 94). -/
def dayOf (m : Int) : Int := m.fdiv secondsPerDay

/-- The grouping key `f"{category}_{subdir}_{file_date}"` (line 97). -/
def dayKey (f : ReportFile) : String × String × Int :=
  (f.category, f.subdir, dayOf f.mtime)

/-- The descending-mtime ordering used by
`files_in_day.sort(key=lambda x: x.mtime, reverse=True)` (line 115). -/
def descMtime (a b : ReportFile) : Prop := b.mtime ≤ a.mtime

instance : DecidableRel descMtime := fun a b => Int.decLe b.mtime a.mtime

instance : IsTotal ReportFile descMtime := ⟨fun a b => le_total b.mtime a.mtime⟩

instance : IsTrans ReportFile descMtime :=
  ⟨fun _ _ _ h1 h2 => le_trans h2 h1⟩

/-- `files_in_day.sort(key=lambda x: x.mtime, reverse=True)` (line 115):
Python's stable sort by descending mtime, modelled by the stable
insertion sort on the same key. -/
def sortDescMtime (files : List ReportFile) : List ReportFile :=
  files.insertionSort descMtime

/-- `cutoff_date = datetime.now() - timedelta(days=keep_days)` (line 48). -/
def cutoffOf (now : Int) (keep_days : Nat) : Int :=
  now - keep_days * secondsPerDay

/-- Per-day-group retention decision (archive_manager.py lines 105-134):
a singleton group moves iff it is older than the cutoff; a larger group
moves entirely when its most recent member is older than the cutoff, and
otherwise moves everything but its most recent member. -/
def processDayGroup (cutoff : Int) (files : List ReportFile) : List ReportFile :=
  if files.length ≤ 1 then
    files.filter (fun f => decide (f.mtime < cutoff))
  else
    match sortDescMtime files with
    | [] => []
    | mostRecent :: duplicates =>
      if mostRecent.mtime < cutoff then mostRecent :: duplicates else duplicates

/-- The day-group keys, in the insertion order of the `by_date` dict
(lines 90-102). -/
def reportGroupKeys (files : List ReportFile) : List (String × String × Int) :=
  firstSeenKeys (files.map dayKey)

/-- The members of one day-group, in scan order (lines 99-102). -/
def reportGroup (files : List ReportFile) (k : String × String × Int) :
    List ReportFile :=
  files.filter (fun f => decide (dayKey f = k))

/-- `ArchiveManager.scan_old_reports` on the directory listing `files`:
groups by `(category, subdir, date-of-mtime)` and concatenates the per-group
retention decisions (lines 47-137). -/
def scan_old_reports (now : Int) (keep_days : Nat) (files : List ReportFile) :
    List ReportFile :=
  (reportGroupKeys files).flatMap
    (fun k => processDayGroup (cutoffOf now keep_days) (reportGroup files k))

/-- The most recent modification time in a group (meaningful for nonempty
groups; the head's mtime is the default). -/
def maxMtime : List ReportFile → Int
  | [] => 0
  | f :: fs => fs.foldl (fun m g => max m g.mtime) f.mtime

example :
    processDayGroup 100
      [⟨"a", "c", "html", 1, 150⟩, ⟨"b", "c", "html", 1, 120⟩] =
      [⟨"b", "c", "html", 1, 120⟩] := by decide

example :
    processDayGroup 100
      [⟨"a", "c", "html", 1, 50⟩, ⟨"b", "c", "html", 1, 20⟩] =
      [⟨"a", "c", "html", 1, 50⟩, ⟨"b", "c", "html", 1, 20⟩] := by decide

example : processDayGroup 100 [⟨"a", "c", "html", 1, 50⟩] =
    [⟨"a", "c", "html", 1, 50⟩] := by decide

example : processDayGroup 100 [⟨"a", "c", "html", 1, 150⟩] = [] := by decide

private lemma foldl_max_init_le (fs : List ReportFile) (init : Int) :
    init ≤ fs.foldl (fun m g => max m g.mtime) init := by
  induction fs generalizing init with
  | nil => simp
  | cons a fs ih => exact le_trans (le_max_left _ _) (ih _)

private lemma foldl_max_mem_le (fs : List ReportFile) (init : Int) :
    ∀ x ∈ fs, x.mtime ≤ fs.foldl (fun m g => max m g.mtime) init := by
  induction fs generalizing init with
  | nil => simp
  | cons a fs ih =>
    intro x hx
    rcases List.mem_cons.mp hx with h | h
    · subst h
      exact le_trans (le_max_right _ _) (foldl_max_init_le _ _)
    · exact ih _ x h

private lemma foldl_max_le (fs : List ReportFile) (init B : Int)
    (h0 : init ≤ B) (h : ∀ x ∈ fs, x.mtime ≤ B) :
    fs.foldl (fun m g => max m g.mtime) init ≤ B := by
  induction fs generalizing init with
  | nil => simpa using h0
  | cons a fs ih =>
    exact ih _ (max_le h0 (h a (by simp))) (fun x hx => h x (by simp [hx]))

lemma le_maxMtime (g : List ReportFile) : ∀ f ∈ g, f.mtime ≤ maxMtime g := by
  cases g with
  | nil => simp
  | cons a fs =>
    intro f hf
    rcases List.mem_cons.mp hf with h | h
    · subst h
      exact foldl_max_init_le _ _
    · exact foldl_max_mem_le _ _ f h

lemma maxMtime_le (g : List ReportFile) (hg : g ≠ []) (B : Int)
    (h : ∀ f ∈ g, f.mtime ≤ B) : maxMtime g ≤ B := by
  cases g with
  | nil => exact absurd rfl hg
  | cons a fs =>
    exact foldl_max_le fs a.mtime B (h a (by simp)) (fun x hx => h x (by simp [hx]))

lemma sortDescMtime_perm (g : List ReportFile) : (sortDescMtime g).Perm g :=
  List.perm_insertionSort descMtime g

lemma sortDescMtime_sorted (g : List ReportFile) :
    (sortDescMtime g).Pairwise descMtime :=
  List.sorted_insertionSort descMtime g

/-- **C1.** For every `(category, subdir, day)` group formed by
`ArchiveManager.scan_old_reports` with cutoff `now - keep_days` days:
(1) a group of at least two members whose most recent modification time is
within the cutoff yields exactly `count - 1` of its members — all of them
except one most-recently-modified member; (2) a group whose most recent
modification time is older than the cutoff yields all of its members;
(3) a singleton group yields its single file iff that file is older than the
cutoff. -/
theorem scan_old_reports_day_group_retention
    (now : Int) (keep_days : Nat) (files : List ReportFile)
    (k : String × String × Int) (_hk : k ∈ reportGroupKeys files) :
    (2 ≤ (reportGroup files k).length →
      cutoffOf now keep_days ≤ maxMtime (reportGroup files k) →
      (processDayGroup (cutoffOf now keep_days) (reportGroup files k)).length
          = (reportGroup files k).length - 1 ∧
      ∃ kept, kept ∈ reportGroup files k ∧
        (∀ f ∈ reportGroup files k, f.mtime ≤ kept.mtime) ∧
        (kept :: processDayGroup (cutoffOf now keep_days) (reportGroup files k)).Perm
          (reportGroup files k)) ∧
    (maxMtime (reportGroup files k) < cutoffOf now keep_days →
      (processDayGroup (cutoffOf now keep_days) (reportGroup files k)).Perm
        (reportGroup files k)) ∧
    (∀ f, reportGroup files k = [f] →
      processDayGroup (cutoffOf now keep_days) (reportGroup files k)
          = if f.mtime < cutoffOf now keep_days then [f] else []) := by
  set c := cutoffOf now keep_days with hc
  set g := reportGroup files k with hgdef
  clear _hk
  refine ⟨?_, ?_, ?_⟩
  · intro h2 hcut
    have hg1 : ¬ g.length ≤ 1 := by omega
    cases hs : sortDescMtime g with
    | nil =>
      have := (sortDescMtime_perm g).length_eq
      rw [hs] at this
      simp at this
      omega
    | cons hd tl =>
      have hperm : (hd :: tl).Perm g := hs ▸ sortDescMtime_perm g
      have hsorted : (hd :: tl).Pairwise descMtime := hs ▸ sortDescMtime_sorted g
      have hhd_max : ∀ f ∈ g, f.mtime ≤ hd.mtime := by
        intro f hf
        rcases List.mem_cons.mp (hperm.mem_iff.mpr hf) with h | h
        · subst h; exact le_refl _
        · exact (List.pairwise_cons.mp hsorted).1 f h
      have hgne : g ≠ [] := by
        intro h
        rw [h] at h2
        simp at h2
      have hnot : ¬ hd.mtime < c :=
        not_lt.mpr (le_trans hcut (maxMtime_le g hgne hd.mtime hhd_max))
      have hval : processDayGroup c g = tl := by
        unfold processDayGroup
        rw [if_neg hg1, hs]
        show (if hd.mtime < c then hd :: tl else tl) = tl
        rw [if_neg hnot]
      refine ⟨?_, hd, hperm.subset (by simp), hhd_max, ?_⟩
      · rw [hval]
        have := hperm.length_eq
        simp at this
        omega
      · rw [hval]
        exact hperm
  · intro hlt
    have hall : ∀ f ∈ g, f.mtime < c :=
      fun f hf => lt_of_le_of_lt (le_maxMtime g f hf) hlt
    by_cases hg1 : g.length ≤ 1
    · have : processDayGroup c g = g := by
        unfold processDayGroup
        rw [if_pos hg1]
        exact List.filter_eq_self.mpr (fun f hf => decide_eq_true (hall f hf))
      rw [this]
    · cases hs : sortDescMtime g with
      | nil =>
        have := (sortDescMtime_perm g).length_eq
        rw [hs] at this
        simp at this
        omega
      | cons hd tl =>
        have hperm : (hd :: tl).Perm g := hs ▸ sortDescMtime_perm g
        have hhd : hd.mtime < c := hall hd (hperm.subset (by simp))
        have hval : processDayGroup c g = hd :: tl := by
          unfold processDayGroup
          rw [if_neg hg1, hs]
          show (if hd.mtime < c then hd :: tl else tl) = hd :: tl
          rw [if_pos hhd]
        rw [hval]
        exact hperm
  · intro f hf
    rw [hf]
    unfold processDayGroup
    rw [if_pos (by simp)]
    by_cases h : f.mtime < c
    · simp [h]
    · simp [h]

/-- Concrete instance of C1: the group `("c","html",day 9)` holds two files,
the newer one within the cutoff; the scanner returns exactly one of them. -/
theorem scan_old_reports_day_group_retention_witness :
    (("c", "html", (9 : Int)) ∈
        reportGroupKeys
          [⟨"a", "c", "html", 1, 800000⟩, ⟨"b", "c", "html", 1, 800100⟩]) ∧
    2 ≤ (reportGroup
          [⟨"a", "c", "html", 1, 800000⟩, ⟨"b", "c", "html", 1, 800100⟩]
          ("c", "html", 9)).length ∧
    cutoffOf 2000000 15 ≤
      maxMtime (reportGroup
          [⟨"a", "c", "html", 1, 800000⟩, ⟨"b", "c", "html", 1, 800100⟩]
          ("c", "html", 9)) ∧
    ((processDayGroup (cutoffOf 2000000 15)
        (reportGroup
          [⟨"a", "c", "html", 1, 800000⟩, ⟨"b", "c", "html", 1, 800100⟩]
          ("c", "html", 9))).length
        = (reportGroup
          [⟨"a", "c", "html", 1, 800000⟩, ⟨"b", "c", "html", 1, 800100⟩]
          ("c", "html", 9)).length - 1 ∧
      ∃ kept, kept ∈ reportGroup
          [⟨"a", "c", "html", 1, 800000⟩, ⟨"b", "c", "html", 1, 800100⟩]
          ("c", "html", 9) ∧
        (∀ f ∈ reportGroup
            [⟨"a", "c", "html", 1, 800000⟩, ⟨"b", "c", "html", 1, 800100⟩]
            ("c", "html", 9), f.mtime ≤ kept.mtime) ∧
        (kept :: processDayGroup (cutoffOf 2000000 15)
            (reportGroup
              [⟨"a", "c", "html", 1, 800000⟩, ⟨"b", "c", "html", 1, 800100⟩]
              ("c", "html", 9))).Perm
          (reportGroup
            [⟨"a", "c", "html", 1, 800000⟩, ⟨"b", "c", "html", 1, 800100⟩]
            ("c", "html", 9))) := by
  refine ⟨by decide, by decide, by decide, ?_⟩
  exact (scan_old_reports_day_group_retention 2000000 15
      [⟨"a", "c", "html", 1, 800000⟩, ⟨"b", "c", "html", 1, 800100⟩]
      ("c", "html", 9) (by decide)).1 (by decide) (by decide)

/-! ## `ArchiveManager.scan_old_backups` (archive_manager.py, lines 139-188) -/

/-- One regular file found in the backups directory. -/
structure BackupFile where
  name : String
  size : Nat
  mtime : Int
deriving DecidableEq, Repr

/-- Python `str.split(sep)` for a one-character separator, over characters. -/
def splitOnChar (sep : Char) : List Char → List (List Char)
  | [] => [[]]
  | c :: cs =>
    if c = sep then [] :: splitOnChar sep cs
    else
      match splitOnChar sep cs with
      | [] => [[c]]
      | p :: ps => (c :: p) :: ps

/-- Python `str.replace(".tar", "")`: removes every (left-to-right,
non-overlapping) occurrence of `.tar`. -/
def removeTar : List Char → List Char
  | '.' :: 't' :: 'a' :: 'r' :: rest => removeTar rest
  | c :: rest => c :: removeTar rest
  | [] => []

/-- Index of the last `.` in a filename, if any. -/
def lastDotIdx (cs : List Char) : Option Nat :=
  ((cs.enum.filter (fun p => p.2 = '.')).map Prod.fst).getLast?

/-- `pathlib.PurePath.stem` on a simple filename: the name without its final
suffix; a filename whose only dot is leading or trailing has no suffix. -/
def stemChars (cs : List Char) : List Char :=
  match lastDotIdx cs with
  | none => cs
  | some i => if 0 < i ∧ i < cs.length - 1 then cs.take i else cs

/-- `pathlib.PurePath.suffix` on a simple filename. -/
def suffixChars (cs : List Char) : List Char :=
  match lastDotIdx cs with
  | none => []
  | some i => if 0 < i ∧ i < cs.length - 1 then cs.drop i else []

/-- The backup category parsed from a filename (archive_manager.py lines
153-157): only files with suffix `.gz`, `.zip` or `.tar` are considered;
the category is `parts[1]` of `stem.replace('.tar','').split('_')` when at
least two parts exist. -/
def categoryOf? (name : String) : Option String :=
  let cs := name.toList
  if suffixChars cs = ".gz".toList ∨ suffixChars cs = ".zip".toList ∨
      suffixChars cs = ".tar".toList then
    match splitOnChar '_' (removeTar (stemChars cs)) with
    | _ :: c :: _ => some c.asString
    | _ => none
  else none

example : categoryOf? "backup_Projects_20240101.tar.gz" = some "Projects" := by
  decide

example : categoryOf? "backup_Projects_20240101.txt" = none := by decide

/-- Descending-mtime ordering for backups (line 173). -/
def descMtimeB (a b : BackupFile) : Prop := b.mtime ≤ a.mtime

instance : DecidableRel descMtimeB := fun a b => Int.decLe b.mtime a.mtime

instance : IsTotal BackupFile descMtimeB := ⟨fun a b => le_total b.mtime a.mtime⟩

instance : IsTrans BackupFile descMtimeB :=
  ⟨fun _ _ _ h1 h2 => le_trans h2 h1⟩

/-- `backups.sort(key=lambda x: x.mtime, reverse=True)` (line 173). -/
def sortDescMtimeB (l : List BackupFile) : List BackupFile :=
  l.insertionSort descMtimeB

/-- The categories of `backup_groups`, in dict insertion order
(lines 150-168). -/
def backupCategories (files : List BackupFile) : List String :=
  firstSeenKeys (files.filterMap (fun f => categoryOf? f.name))

/-- The members of one backup category group, in scan order. -/
def backupGroup (files : List BackupFile) (c : String) : List BackupFile :=
  files.filter (fun f => categoryOf? f.name = some c)

/-- `to_move = backups[keep_count:]` after the descending sort (line 176). -/
def backupsToMove (keep_count : Nat) (g : List BackupFile) : List BackupFile :=
  (sortDescMtimeB g).drop keep_count

/-- `ArchiveManager.scan_old_backups` on the directory listing `files`
(lines 139-188). -/
def scan_old_backups (keep_count : Nat) (files : List BackupFile) :
    List BackupFile :=
  (backupCategories files).flatMap
    (fun c => backupsToMove keep_count (backupGroup files c))

lemma sortDescMtimeB_perm (g : List BackupFile) : (sortDescMtimeB g).Perm g :=
  List.perm_insertionSort descMtimeB g

lemma sortDescMtimeB_sorted (g : List BackupFile) :
    (sortDescMtimeB g).Pairwise descMtimeB :=
  List.sorted_insertionSort descMtimeB g

/-- **C4.** For every category group parsed by
`ArchiveManager.scan_old_backups` with `keep_count = N`: the scanner returns
exactly `max 0 (total - N)` entries of the group, and together with the `N`
kept (most recently modified) entries they make up the whole group; every
returned entry's modification time is at most that of every kept entry. -/
theorem scan_old_backups_keep_count
    (keep_count : Nat) (files : List BackupFile) (c : String)
    (_hc : c ∈ backupCategories files) :
    ((backupsToMove keep_count (backupGroup files c)).length
        = (backupGroup files c).length - keep_count) ∧
    (((backupsToMove keep_count (backupGroup files c)).length : Int)
        = max 0 (((backupGroup files c).length : Int) - (keep_count : Int))) ∧
    (((sortDescMtimeB (backupGroup files c)).take keep_count
        ++ backupsToMove keep_count (backupGroup files c)).Perm
      (backupGroup files c)) ∧
    (∀ x ∈ backupsToMove keep_count (backupGroup files c),
      ∀ y ∈ (sortDescMtimeB (backupGroup files c)).take keep_count,
        x.mtime ≤ y.mtime) := by
  set g := backupGroup files c with hg
  have hlen : (sortDescMtimeB g).length = g.length :=
    (sortDescMtimeB_perm g).length_eq
  have h1 : (backupsToMove keep_count g).length = g.length - keep_count := by
    unfold backupsToMove
    rw [List.length_drop, hlen]
  refine ⟨h1, ?_, ?_, ?_⟩
  · rw [h1]
    omega
  · unfold backupsToMove
    rw [List.take_append_drop]
    exact sortDescMtimeB_perm g
  · intro x hx y hy
    have hpw : ((sortDescMtimeB g).take keep_count
        ++ (sortDescMtimeB g).drop keep_count).Pairwise descMtimeB := by
      rw [List.take_append_drop]
      exact sortDescMtimeB_sorted g
    exact (List.pairwise_append.mp hpw).2.2 y hy x hx

/-- Concrete instance of C4 (spec scenario): three backups for category
`Projects` with `keep_count = 2` → exactly one entry returned, the oldest. -/
theorem scan_old_backups_keep_count_witness :
    ("Projects" ∈ backupCategories
        [⟨"backup_Projects_1.tar.gz", 5, 100⟩,
         ⟨"backup_Projects_2.tar.gz", 5, 300⟩,
         ⟨"backup_Projects_3.tar.gz", 5, 200⟩]) ∧
    ((backupsToMove 2 (backupGroup
        [⟨"backup_Projects_1.tar.gz", 5, 100⟩,
         ⟨"backup_Projects_2.tar.gz", 5, 300⟩,
         ⟨"backup_Projects_3.tar.gz", 5, 200⟩] "Projects")).length
        = (backupGroup
        [⟨"backup_Projects_1.tar.gz", 5, 100⟩,
         ⟨"backup_Projects_2.tar.gz", 5, 300⟩,
         ⟨"backup_Projects_3.tar.gz", 5, 200⟩] "Projects").length - 2) ∧
    (∀ x ∈ backupsToMove 2 (backupGroup
        [⟨"backup_Projects_1.tar.gz", 5, 100⟩,
         ⟨"backup_Projects_2.tar.gz", 5, 300⟩,
         ⟨"backup_Projects_3.tar.gz", 5, 200⟩] "Projects"),
      ∀ y ∈ (sortDescMtimeB (backupGroup
        [⟨"backup_Projects_1.tar.gz", 5, 100⟩,
         ⟨"backup_Projects_2.tar.gz", 5, 300⟩,
         ⟨"backup_Projects_3.tar.gz", 5, 200⟩] "Projects")).take 2,
        x.mtime ≤ y.mtime) := by
  have h := scan_old_backups_keep_count 2
      [⟨"backup_Projects_1.tar.gz", 5, 100⟩,
       ⟨"backup_Projects_2.tar.gz", 5, 300⟩,
       ⟨"backup_Projects_3.tar.gz", 5, 200⟩] "Projects" (by decide)
  exact ⟨by decide, h.1, h.2.2.2⟩

/-! ## `TrashManager.compress_and_move` — dominant tag and bundle filename
(trash_manager.py, lines 134-146) -/

/-- One staged trash item (trash_manager.py lines 61-69). -/
structure TrashItem where
  name : String
  tag : String
  size : Nat
  is_dir : Bool
deriving DecidableEq, Repr

/-- `tag_counts[tag] = tag_counts.get(tag, 0) + 1` on a dict kept as an
association list in insertion order (lines 136-138). -/
def bumpTag : List (String × Nat) → String → List (String × Nat)
  | [], t => [(t, 1)]
  | (k, n) :: rest, t =>
    if k = t then (k, n + 1) :: rest else (k, n) :: bumpTag rest t

/-- The `tag_counts` dict after the counting loop (lines 135-138). -/
def tagCounts (tags : List String) : List (String × Nat) :=
  tags.foldl bumpTag []

/-- Python `max(iterable, key=f)`: the first element attaining the maximal
key. -/
def pickMax (e : String × Nat) (rest : List (String × Nat)) : String × Nat :=
  rest.foldl (fun best x => if best.2 < x.2 then x else best) e

/-- `max(tag_counts, key=tag_counts.get)` (line 139). -/
def maxByCount : List (String × Nat) → Option (String × Nat)
  | [] => none
  | e :: rest => some (pickMax e rest)

/-- `main_tag` of a staged item list (lines 135-139); `none` iff the list is
empty (in the source `max` on an empty dict would raise, but
`compress_and_move` returns early on an empty staging list). -/
def mainTag (items : List TrashItem) : Option String :=
  (maxByCount (tagCounts (items.map (fun it => it.tag)))).map Prod.fst

/-- The generated bundle filename (lines 142-146). -/
def bundleFilename (tag : String) (customName : Option String)
    (timestamp : String) : String :=
  match customName with
  | some n => "[" ++ tag ++ "]_" ++ n ++ "_" ++ timestamp ++ ".tar.gz"
  | none => "[" ++ tag ++ "]_trash_" ++ timestamp ++ ".tar.gz"

example :
    mainTag [⟨"r1", "OLD-REPORTS", 1, false⟩, ⟨"r2", "OLD-REPORTS", 1, false⟩,
      ⟨"l1", "LOGS", 1, false⟩] = some "OLD-REPORTS" := by decide

example :
    mainTag [⟨"a", "LOGS", 1, false⟩, ⟨"b", "TEMP", 1, false⟩] =
      some "LOGS" := by decide

private lemma bumpTag_keys (acc : List (String × Nat)) (t : String) :
    (bumpTag acc t).map Prod.fst =
      if t ∈ acc.map Prod.fst then acc.map Prod.fst
      else acc.map Prod.fst ++ [t] := by
  induction acc with
  | nil => simp [bumpTag]
  | cons e rest ih =>
    obtain ⟨k, n⟩ := e
    by_cases hk : k = t
    · subst hk
      simp [bumpTag]
    · simp only [bumpTag, if_neg hk, List.map_cons]
      rw [ih]
      by_cases ht : t ∈ rest.map Prod.fst
      · simp [ht, hk, Ne.symm hk]
      · simp [ht, hk, Ne.symm hk]

private lemma foldl_bumpTag_keys (tags : List String)
    (acc : List (String × Nat)) :
    (tags.foldl bumpTag acc).map Prod.fst =
      tags.foldl (fun ks t => if t ∈ ks then ks else ks ++ [t])
        (acc.map Prod.fst) := by
  induction tags generalizing acc with
  | nil => rfl
  | cons t ts ih =>
    simp only [List.foldl_cons]
    rw [ih, bumpTag_keys]

/-- The keys of `tag_counts` are the staged tags in first-seen order. -/
lemma tagCounts_keys (tags : List String) :
    (tagCounts tags).map Prod.fst = firstSeenKeys tags :=
  foldl_bumpTag_keys tags []

private lemma bumpTag_cons_eq (k : String) (n : Nat)
    (acc : List (String × Nat)) :
    bumpTag ((k, n) :: acc) k = (k, n + 1) :: acc := by
  simp [bumpTag]

private lemma bumpTag_cons_ne (k : String) (n : Nat)
    (acc : List (String × Nat)) (t : String) (h : k ≠ t) :
    bumpTag ((k, n) :: acc) t = (k, n) :: bumpTag acc t := by
  simp [bumpTag, h]

private lemma foldl_bumpTag_cons (ts : List String) (k : String) (n : Nat)
    (acc : List (String × Nat)) :
    ts.foldl bumpTag ((k, n) :: acc) =
      (k, n + ts.count k) :: (ts.filter (fun x => x ≠ k)).foldl bumpTag acc := by
  induction ts generalizing k n acc with
  | nil => simp
  | cons t ts ih =>
    by_cases hk : t = k
    · subst hk
      rw [List.foldl_cons, bumpTag_cons_eq, ih]
      have h1 : List.count t (t :: ts) = List.count t ts + 1 := by
        simp [List.count_cons]
      have h2 : (t :: ts).filter (fun x => x ≠ t) =
          ts.filter (fun x => x ≠ t) := by
        simp
      rw [h1, h2]
      have h3 : n + 1 + List.count t ts = n + (List.count t ts + 1) := by omega
      rw [h3]
    · rw [List.foldl_cons, bumpTag_cons_ne k n acc t (Ne.symm hk), ih]
      have h1 : List.count k (t :: ts) = List.count k ts := by
        simp [List.count_cons, Ne.symm hk]
      have h2 : (t :: ts).filter (fun x => x ≠ k) =
          t :: ts.filter (fun x => x ≠ k) := by
        simp [hk]
      rw [h1, h2, List.foldl_cons]

/-- Unrolling of the `tag_counts` loop on a first staged tag. -/
lemma tagCounts_cons (t : String) (ts : List String) :
    tagCounts (t :: ts) =
      (t, 1 + ts.count t) :: tagCounts (ts.filter (fun x => x ≠ t)) := by
  unfold tagCounts
  simp only [List.foldl_cons, bumpTag]
  exact foldl_bumpTag_cons ts t 1 []

/-- Every `tag_counts` entry holds the occurrence count of its key among the
staged tags. -/
lemma tagCounts_mem_spec :
    ∀ (tags : List String) (k : String) (n : Nat),
      (k, n) ∈ tagCounts tags → n = tags.count k ∧ k ∈ tags
  | [], k, n => by simp [tagCounts]
  | t :: ts, k, n => by
    intro h
    rw [tagCounts_cons] at h
    rcases List.mem_cons.mp h with h | h
    · have hk : k = t := congrArg Prod.fst h
      have hn : n = 1 + ts.count t := congrArg Prod.snd h
      subst hk
      constructor
      · rw [hn]
        simp [List.count_cons]
        omega
      · simp
    · have hrec := tagCounts_mem_spec (ts.filter (fun x => x ≠ t)) k n h
      have hmem : k ∈ ts ∧ k ≠ t := by
        have := hrec.2
        simpa using this
      constructor
      · rw [hrec.1]
        rw [List.count_filter (by simpa using hmem.2)]
        simp [List.count_cons, hmem.2]
      · exact List.mem_cons_of_mem _ hmem.1
termination_by tags => tags.length
decreasing_by
  simp only [List.length_cons]
  exact Nat.lt_succ_of_le (List.length_filter_le _ _)

/-- Every staged tag has an entry in `tag_counts`. -/
lemma mem_tagCounts_keys :
    ∀ (tags : List String) (t : String),
      t ∈ tags → t ∈ (tagCounts tags).map Prod.fst
  | [], t => by simp
  | t0 :: ts, t => by
    intro ht
    rw [tagCounts_cons]
    simp only [List.map_cons, List.mem_cons]
    by_cases h : t = t0
    · exact Or.inl h
    · right
      apply mem_tagCounts_keys (ts.filter (fun x => x ≠ t0)) t
      rcases List.mem_cons.mp ht with h1 | h1
      · exact absurd h1 h
      · simp [h1, h]
termination_by tags => tags.length
decreasing_by
  simp only [List.length_cons]
  exact Nat.lt_succ_of_le (List.length_filter_le _ _)

/-- Python `max(..., key=...)` keeps the first maximal element: the result is
either the seed (all later elements no larger), or an element of the list that
strictly beats the seed and everything before it, and is at least everything
after it. -/
lemma pickMax_spec (rest : List (String × Nat)) (e : String × Nat) :
    (pickMax e rest = e ∧ ∀ x ∈ rest, x.2 ≤ e.2) ∨
    (∃ r1 r2, rest = r1 ++ pickMax e rest :: r2 ∧
      e.2 < (pickMax e rest).2 ∧
      (∀ x ∈ r1, x.2 < (pickMax e rest).2) ∧
      (∀ x ∈ r2, x.2 ≤ (pickMax e rest).2)) := by
  induction rest generalizing e with
  | nil => exact Or.inl ⟨rfl, by simp⟩
  | cons x rest ih =>
    by_cases hx : e.2 < x.2
    · have hpe : pickMax e (x :: rest) = pickMax x rest := by
        show pickMax (if e.2 < x.2 then x else e) rest = pickMax x rest
        rw [if_pos hx]
      rw [hpe]
      rcases ih x with ⟨heq, hall⟩ | ⟨r1, r2, hsplit, hlt, h1, h2⟩
      · right
        refine ⟨[], rest, ?_, ?_, by simp, ?_⟩
        · simp [heq]
        · rw [heq]; exact hx
        · intro y hy; rw [heq]; exact hall y hy
      · right
        refine ⟨x :: r1, r2, ?_, lt_trans hx hlt, ?_, h2⟩
        · rw [List.cons_append, ← hsplit]
        · intro y hy
          rcases List.mem_cons.mp hy with h | h
          · subst h; exact hlt
          · exact h1 y h
    · have hpe : pickMax e (x :: rest) = pickMax e rest := by
        show pickMax (if e.2 < x.2 then x else e) rest = pickMax e rest
        rw [if_neg hx]
      rw [hpe]
      rcases ih e with ⟨heq, hall⟩ | ⟨r1, r2, hsplit, hlt, h1, h2⟩
      · left
        refine ⟨heq, ?_⟩
        intro y hy
        rcases List.mem_cons.mp hy with h | h
        · subst h; exact not_lt.mp hx
        · exact hall y h
      · right
        refine ⟨x :: r1, r2, ?_, hlt, ?_, h2⟩
        · rw [List.cons_append, ← hsplit]
        · intro y hy
          rcases List.mem_cons.mp hy with h | h
          · subst h; exact lt_of_le_of_lt (not_lt.mp hx) hlt
          · exact h1 y h

lemma pickMax_mem (rest : List (String × Nat)) (e : String × Nat) :
    pickMax e rest ∈ e :: rest := by
  rcases pickMax_spec rest e with ⟨heq, _⟩ | ⟨r1, r2, hsplit, _, _, _⟩
  · rw [heq]; simp
  · right
    have h := List.mem_append_right r1 (List.mem_cons_self (pickMax e rest) r2)
    rwa [← hsplit] at h

lemma pickMax_ub (rest : List (String × Nat)) (e : String × Nat) :
    ∀ x ∈ e :: rest, x.2 ≤ (pickMax e rest).2 := by
  rcases pickMax_spec rest e with ⟨heq, hall⟩ | ⟨r1, r2, hsplit, hlt, h1, h2⟩
  · intro x hx
    rw [heq]
    rcases List.mem_cons.mp hx with h | h
    · subst h; exact le_refl _
    · exact hall x h
  · intro x hx
    rcases List.mem_cons.mp hx with h | h
    · subst h; exact le_of_lt hlt
    · rw [hsplit] at h
      rcases List.mem_append.mp h with h | h
      · exact le_of_lt (h1 x h)
      · rcases List.mem_cons.mp h with h | h
        · rw [h]
        · exact h2 x h

/-- **C5.** For every non-empty staged item list, `main_tag` is the tag held
by the plurality of staged items, ties broken in favour of the first-seen tag
(every tag seen before it in first-insertion order has a strictly smaller
count), and the generated bundle filename begins with that tag in square
brackets; in particular sealing 2 items tagged `OLD-REPORTS` and 1 tagged
`LOGS` yields dominant tag `OLD-REPORTS` in the filename. -/
theorem mainTag_plurality_first_seen :
    (∀ (items : List TrashItem), items ≠ [] →
      ∃ m pre post,
        mainTag items = some m ∧
        m ∈ items.map (fun it => it.tag) ∧
        (∀ t ∈ items.map (fun it => it.tag),
          (items.map (fun it => it.tag)).count t
            ≤ (items.map (fun it => it.tag)).count m) ∧
        firstSeenKeys (items.map (fun it => it.tag)) = pre ++ m :: post ∧
        (∀ t ∈ pre,
          (items.map (fun it => it.tag)).count t
            < (items.map (fun it => it.tag)).count m) ∧
        (∀ (customName : Option String) (timestamp : String), ∃ r,
          bundleFilename m customName timestamp
            = "[" ++ m ++ "]" ++ r)) ∧
    (mainTag [⟨"r1", "OLD-REPORTS", 1, false⟩, ⟨"r2", "OLD-REPORTS", 1, false⟩,
        ⟨"l1", "LOGS", 1, false⟩] = some "OLD-REPORTS" ∧
      bundleFilename "OLD-REPORTS" none "20251103-120000"
        = "[OLD-REPORTS]_trash_20251103-120000.tar.gz") := by
  constructor
  · intro items hne
    obtain ⟨e, rest, hco⟩ : ∃ e rest,
        tagCounts (items.map (fun it => it.tag)) = e :: rest := by
      cases items with
      | nil => exact absurd rfl hne
      | cons it its =>
        rw [List.map_cons, tagCounts_cons]
        exact ⟨_, _, rfl⟩
    have hmb : maxByCount (tagCounts (items.map (fun it => it.tag)))
        = some (pickMax e rest) := by
      rw [hco]
      rfl
    have hmt : mainTag items = some (pickMax e rest).1 := by
      unfold mainTag
      rw [hmb]
      rfl
    have hrin : pickMax e rest ∈ tagCounts (items.map (fun it => it.tag)) := by
      rw [hco]
      exact pickMax_mem rest e
    have hrspec := tagCounts_mem_spec (items.map (fun it => it.tag))
      (pickMax e rest).1 (pickMax e rest).2 (by simpa using hrin)
    have hmaxcnt : ∀ t ∈ items.map (fun it => it.tag),
        (items.map (fun it => it.tag)).count t
          ≤ (items.map (fun it => it.tag)).count (pickMax e rest).1 := by
      intro t ht
      have hkey := mem_tagCounts_keys _ t ht
      rw [List.mem_map] at hkey
      obtain ⟨p, hp, hpt⟩ := hkey
      have hps := tagCounts_mem_spec _ p.1 p.2 (by simpa using hp)
      have hple : p.2 ≤ (pickMax e rest).2 := by
        apply pickMax_ub rest e
        rwa [← hco]
      rw [← hpt, ← hps.1, ← hrspec.1]
      exact hple
    have hfn : ∀ (customName : Option String) (timestamp : String), ∃ r,
        bundleFilename (pickMax e rest).1 customName timestamp
          = "[" ++ (pickMax e rest).1 ++ "]" ++ r := by
      intro cn ts
      cases cn with
      | none =>
        refine ⟨"_trash_" ++ ts ++ ".tar.gz", ?_⟩
        show "[" ++ (pickMax e rest).1 ++ "]_trash_" ++ ts ++ ".tar.gz"
            = "[" ++ (pickMax e rest).1 ++ "]" ++ ("_trash_" ++ ts ++ ".tar.gz")
        have h : ("]_trash_" : String) = "]" ++ "_trash_" := rfl
        rw [h]
        simp only [String.append_assoc]
      | some n =>
        refine ⟨"_" ++ n ++ "_" ++ ts ++ ".tar.gz", ?_⟩
        show "[" ++ (pickMax e rest).1 ++ "]_" ++ n ++ "_" ++ ts ++ ".tar.gz"
            = "[" ++ (pickMax e rest).1 ++ "]"
                ++ ("_" ++ n ++ "_" ++ ts ++ ".tar.gz")
        have h : ("]_" : String) = "]" ++ "_" := rfl
        rw [h]
        simp only [String.append_assoc]
    rcases pickMax_spec rest e with ⟨heq, hall⟩ | ⟨r1, r2, hsplit, hlt, h1, h2⟩
    · refine ⟨(pickMax e rest).1, [], rest.map Prod.fst, hmt, hrspec.2,
        hmaxcnt, ?_, by simp, hfn⟩
      rw [← tagCounts_keys]
      conv_lhs => rw [hco]
      rw [heq]
      simp
    · refine ⟨(pickMax e rest).1, e.1 :: r1.map Prod.fst, r2.map Prod.fst,
        hmt, hrspec.2, hmaxcnt, ?_, ?_, hfn⟩
      · rw [← tagCounts_keys]
        conv_lhs => rw [hco, hsplit]
        simp
      · intro t ht
        rcases List.mem_cons.mp ht with h | h
        · subst h
          have hein : e ∈ tagCounts (items.map (fun it => it.tag)) := by
            rw [hco]
            exact List.mem_cons_self _ _
          have hes := tagCounts_mem_spec _ e.1 e.2 (by simpa using hein)
          rw [← hes.1, ← hrspec.1]
          exact hlt
        · rw [List.mem_map] at h
          obtain ⟨p, hp, hpt⟩ := h
          have hpr : p ∈ rest := by
            rw [hsplit]
            exact List.mem_append_left _ hp
          have hpin : p ∈ tagCounts (items.map (fun it => it.tag)) := by
            rw [hco]
            exact List.mem_cons_of_mem _ hpr
          have hps := tagCounts_mem_spec _ p.1 p.2 (by simpa using hpin)
          rw [← hpt, ← hps.1, ← hrspec.1]
          exact h1 p hp
  · exact ⟨by decide, by decide⟩

/-- Concrete instance of C5 (spec scenario): two items tagged `OLD-REPORTS`
and one tagged `LOGS`. -/
theorem mainTag_plurality_first_seen_witness :
    ([⟨"r1", "OLD-REPORTS", 1, false⟩, ⟨"r2", "OLD-REPORTS", 1, false⟩,
        ⟨"l1", "LOGS", 1, false⟩] : List TrashItem) ≠ [] ∧
    (∃ m pre post,
      mainTag [⟨"r1", "OLD-REPORTS", 1, false⟩,
        ⟨"r2", "OLD-REPORTS", 1, false⟩, ⟨"l1", "LOGS", 1, false⟩] = some m ∧
      m ∈ ([⟨"r1", "OLD-REPORTS", 1, false⟩, ⟨"r2", "OLD-REPORTS", 1, false⟩,
        ⟨"l1", "LOGS", 1, false⟩] : List TrashItem).map (fun it => it.tag) ∧
      (∀ t ∈ ([⟨"r1", "OLD-REPORTS", 1, false⟩,
          ⟨"r2", "OLD-REPORTS", 1, false⟩,
          ⟨"l1", "LOGS", 1, false⟩] : List TrashItem).map (fun it => it.tag),
        (([⟨"r1", "OLD-REPORTS", 1, false⟩, ⟨"r2", "OLD-REPORTS", 1, false⟩,
          ⟨"l1", "LOGS", 1, false⟩] : List TrashItem).map
            (fun it => it.tag)).count t
          ≤ (([⟨"r1", "OLD-REPORTS", 1, false⟩,
          ⟨"r2", "OLD-REPORTS", 1, false⟩,
          ⟨"l1", "LOGS", 1, false⟩] : List TrashItem).map
            (fun it => it.tag)).count m) ∧
      firstSeenKeys (([⟨"r1", "OLD-REPORTS", 1, false⟩,
          ⟨"r2", "OLD-REPORTS", 1, false⟩,
          ⟨"l1", "LOGS", 1, false⟩] : List TrashItem).map (fun it => it.tag))
        = pre ++ m :: post ∧
      (∀ t ∈ pre,
        (([⟨"r1", "OLD-REPORTS", 1, false⟩, ⟨"r2", "OLD-REPORTS", 1, false⟩,
          ⟨"l1", "LOGS", 1, false⟩] : List TrashItem).map
            (fun it => it.tag)).count t
          < (([⟨"r1", "OLD-REPORTS", 1, false⟩,
          ⟨"r2", "OLD-REPORTS", 1, false⟩,
          ⟨"l1", "LOGS", 1, false⟩] : List TrashItem).map
            (fun it => it.tag)).count m) ∧
      (∀ (customName : Option String) (timestamp : String), ∃ r,
        bundleFilename m customName timestamp = "[" ++ m ++ "]" ++ r)) :=
  ⟨by decide, mainTag_plurality_first_seen.1
    [⟨"r1", "OLD-REPORTS", 1, false⟩, ⟨"r2", "OLD-REPORTS", 1, false⟩,
      ⟨"l1", "LOGS", 1, false⟩] (by decide)⟩

/-! ## Compression bookkeeping (trash_manager.py, lines 162-164) -/

/-- `compression_ratio = ((original_size - compressed_size) / original_size
* 100) if original_size > 0 else 0` (line 164); Python float division is
modelled exactly over `ℚ`. -/
def compressionPct (originalSize compressedSize : Nat) : ℚ :=
  if 0 < originalSize then
    ((originalSize : ℚ) - (compressedSize : ℚ)) / (originalSize : ℚ) * 100
  else 0

/-- `original_size = sum(item['size'] for item in self.items_to_trash)`
(line 163). -/
def originalSizeOf (items : List TrashItem) : Nat :=
  (items.map (fun it => it.size)).sum

/-- Counterexample to C9 as stated: with original size 2 and compressed
size 1 the recorded value is `50` (a percentage), not `(2 - 1) / 2 = 1/2`. -/
theorem compressionPct_counterexample :
    compressionPct 2 1 = 50 ∧ compressionPct 2 1 ≠ ((2 : ℚ) - 1) / 2 := by
  constructor
  · norm_num [compressionPct]
  · norm_num [compressionPct]

/-- **C9 (amended).** The recorded compression value is the percentage
`(o - c) / o * 100` whenever the original aggregate size `o` is positive, and
`0` (not a division error) when `o = 0`. -/
theorem compressionPct_spec (o c : Nat) :
    (0 < o → compressionPct o c = ((o : ℚ) - (c : ℚ)) / (o : ℚ) * 100) ∧
    (o = 0 → compressionPct o c = 0) := by
  constructor
  · intro h
    simp [compressionPct, h]
  · intro h
    subst h
    simp [compressionPct]

/-- Concrete instance of C9 (amended): original 4, compressed 1 → 75%; empty
original → 0. -/
theorem compressionPct_spec_witness :
    compressionPct 4 1 = ((4 : ℚ) - 1) / 4 * 100 ∧ compressionPct 0 5 = 0 :=
  ⟨(compressionPct_spec 4 1).1 (by norm_num),
    (compressionPct_spec 0 5).2 rfl⟩

/-! ## `TrashManager.compress_and_move` — effect ordering and deletion
(trash_manager.py, lines 116-227) -/

/-- One observable effect of the success path of `compress_and_move`. -/
inductive SealEvent where
  | tarAdd (name : String) (ok : Bool)
  | closeStream
  | writeBundleMetadata
  | appendManifest
  | deleteOriginal (name : String) (ok : Bool)
  | recordUsage
deriving DecidableEq, Repr

/-- The effect sequence of the success path (no uncaught top-level error) of
`compress_and_move`: the tar loop with per-item errors caught (lines
152-160, oracle `addOk`), the stream closing at the end of the `with` block
(line 161), the sibling metadata write (lines 189-191), the manifest append
(line 194), the deletion loop over **all** staged items with per-item errors
caught (lines 197-205, oracle `delOk`), and the usage update (lines
207-209). -/
def sealEvents (items : List TrashItem) (addOk delOk : TrashItem → Bool) :
    List SealEvent :=
  (items.map (fun it => SealEvent.tarAdd it.name (addOk it)))
    ++ [SealEvent.closeStream, SealEvent.writeBundleMetadata,
        SealEvent.appendManifest]
    ++ (items.map (fun it => SealEvent.deleteOriginal it.name (delOk it)))
    ++ [SealEvent.recordUsage]

/-- The trash store and staged originals, as touched by sealing. -/
structure TrashStoreState where
  compressed : List String
  metadataFiles : List String
  manifestEntries : List String
  originals : List String
deriving DecidableEq, Repr

/-- Interpretation of one seal effect on the store state. A successful
deletion removes the original path; nothing ever removes a compressed
bundle, a metadata file or a manifest entry. -/
def stepSeal (bundle : String) (st : TrashStoreState) :
    SealEvent → TrashStoreState
  | SealEvent.tarAdd _ _ => st
  | SealEvent.closeStream => st
  | SealEvent.writeBundleMetadata =>
    { st with metadataFiles := st.metadataFiles ++ [bundle ++ ".json"] }
  | SealEvent.appendManifest =>
    { st with manifestEntries := st.manifestEntries ++ [bundle] }
  | SealEvent.deleteOriginal n true =>
    { st with originals := st.originals.erase n }
  | SealEvent.deleteOriginal _ false => st
  | SealEvent.recordUsage => st

def runSeal (bundle : String) (st : TrashStoreState)
    (evs : List SealEvent) : TrashStoreState :=
  evs.foldl (stepSeal bundle) st

/-- The bundle file is created when the output stream opens (line 152). -/
def openStream (bundle : String) (st : TrashStoreState) : TrashStoreState :=
  { st with compressed := st.compressed ++ [bundle] }

/-- The deletion attempts recorded in an effect sequence. -/
def deletionAttempts (evs : List SealEvent) : List (String × Bool) :=
  evs.filterMap (fun ev =>
    match ev with
    | SealEvent.deleteOriginal n ok => some (n, ok)
    | _ => none)

private lemma runSeal_compressed (bundle : String) (evs : List SealEvent) :
    ∀ st : TrashStoreState, (runSeal bundle st evs).compressed
        = st.compressed := by
  induction evs with
  | nil => intro st; rfl
  | cons ev evs ih =>
    intro st
    show (runSeal bundle (stepSeal bundle st ev) evs).compressed = _
    rw [ih]
    cases ev with
    | tarAdd n ok => rfl
    | closeStream => rfl
    | writeBundleMetadata => rfl
    | appendManifest => rfl
    | deleteOriginal n ok => cases ok <;> rfl
    | recordUsage => rfl

private lemma runSeal_manifest_mono (bundle : String) (evs : List SealEvent) :
    ∀ (st : TrashStoreState) (x : String), x ∈ st.manifestEntries →
      x ∈ (runSeal bundle st evs).manifestEntries := by
  induction evs with
  | nil => intro st x hx; exact hx
  | cons ev evs ih =>
    intro st x hx
    show x ∈ (runSeal bundle (stepSeal bundle st ev) evs).manifestEntries
    apply ih
    cases ev with
    | tarAdd n ok => exact hx
    | closeStream => exact hx
    | writeBundleMetadata => exact hx
    | appendManifest => simp [stepSeal, hx]
    | deleteOriginal n ok => cases ok <;> exact hx
    | recordUsage => exact hx

private lemma runSeal_manifest_of_append (bundle : String)
    (evs : List SealEvent) :
    ∀ st : TrashStoreState, SealEvent.appendManifest ∈ evs →
      bundle ∈ (runSeal bundle st evs).manifestEntries := by
  induction evs with
  | nil => intro st h; simp at h
  | cons ev evs ih =>
    intro st h
    rcases List.mem_cons.mp h with h | h
    · subst h
      show bundle ∈ (runSeal bundle
        (stepSeal bundle st SealEvent.appendManifest) evs).manifestEntries
      apply runSeal_manifest_mono
      show bundle ∈ st.manifestEntries ++ [bundle]
      simp
    · exact ih _ h

private lemma filterMap_deletion_tarAdds (items : List TrashItem)
    (addOk : TrashItem → Bool) :
    (items.map (fun it => SealEvent.tarAdd it.name (addOk it))).filterMap
      (fun ev =>
        match ev with
        | SealEvent.deleteOriginal n ok => some (n, ok)
        | _ => none) = [] := by
  induction items with
  | nil => rfl
  | cons it items ih => exact ih

private lemma filterMap_deletion_deletes (items : List TrashItem)
    (delOk : TrashItem → Bool) :
    (items.map (fun it => SealEvent.deleteOriginal it.name (delOk it))).filterMap
      (fun ev =>
        match ev with
        | SealEvent.deleteOriginal n ok => some (n, ok)
        | _ => none) = items.map (fun it => (it.name, delOk it)) := by
  induction items with
  | nil => rfl
  | cons it items ih =>
    show (it.name, delOk it) :: _ = (it.name, delOk it) :: _
    rw [ih]

/-- **C2 (amended).** During seal: the Trash Manifest entry is appended
strictly after the compressed stream has been written (all tar additions
precede the close) and closed; the deletion phase then attempts to delete
**every** originally staged path — regardless of whether its compression
succeeded — and a per-path deletion failure does not roll back or remove the
already-sealed archive or its manifest entry. -/
theorem compress_and_move_seal_order (items : List TrashItem)
    (addOk delOk : TrashItem → Bool) (st : TrashStoreState)
    (bundle : String) (_hne : items ≠ []) :
    (∃ pre post,
      sealEvents items addOk delOk
          = pre ++ SealEvent.closeStream :: SealEvent.writeBundleMetadata
              :: SealEvent.appendManifest :: post ∧
      (∀ ev ∈ pre, ∃ nm ok, ev = SealEvent.tarAdd nm ok) ∧
      (∀ ev ∈ post, (∃ nm ok, ev = SealEvent.deleteOriginal nm ok) ∨
        ev = SealEvent.recordUsage)) ∧
    (deletionAttempts (sealEvents items addOk delOk)
        = items.map (fun it => (it.name, delOk it))) ∧
    (bundle ∈ (runSeal bundle (openStream bundle st)
        (sealEvents items addOk delOk)).compressed ∧
      bundle ∈ (runSeal bundle (openStream bundle st)
        (sealEvents items addOk delOk)).manifestEntries) := by
  refine ⟨?_, ?_, ?_, ?_⟩
  · refine ⟨items.map (fun it => SealEvent.tarAdd it.name (addOk it)),
      (items.map (fun it => SealEvent.deleteOriginal it.name (delOk it)))
        ++ [SealEvent.recordUsage], ?_, ?_, ?_⟩
    · simp [sealEvents]
    · intro ev hev
      rw [List.mem_map] at hev
      obtain ⟨it, _, h⟩ := hev
      exact ⟨it.name, addOk it, h.symm⟩
    · intro ev hev
      rcases List.mem_append.mp hev with h | h
      · rw [List.mem_map] at h
        obtain ⟨it, _, h⟩ := h
        exact Or.inl ⟨it.name, delOk it, h.symm⟩
      · exact Or.inr (List.mem_singleton.mp h)
  · unfold deletionAttempts sealEvents
    rw [List.filterMap_append, List.filterMap_append, List.filterMap_append]
    rw [filterMap_deletion_tarAdds, filterMap_deletion_deletes]
    simp
  · rw [runSeal_compressed]
    simp [openStream]
  · apply runSeal_manifest_of_append
    simp [sealEvents]

/-- Concrete instance of C2 (amended): one staged item compressed
successfully but whose deletion fails — the sealed bundle and its manifest
entry survive. -/
theorem compress_and_move_seal_order_witness :
    (∃ pre post,
      sealEvents [⟨"a", "LOGS", 2, false⟩] (fun _ => true) (fun _ => false)
          = pre ++ SealEvent.closeStream :: SealEvent.writeBundleMetadata
              :: SealEvent.appendManifest :: post ∧
      (∀ ev ∈ pre, ∃ nm ok, ev = SealEvent.tarAdd nm ok) ∧
      (∀ ev ∈ post, (∃ nm ok, ev = SealEvent.deleteOriginal nm ok) ∨
        ev = SealEvent.recordUsage)) ∧
    (deletionAttempts (sealEvents [⟨"a", "LOGS", 2, false⟩]
        (fun _ => true) (fun _ => false))
        = [("a", false)]) ∧
    ("b" ∈ (runSeal "b" (openStream "b" ⟨[], [], [], ["a"]⟩)
        (sealEvents [⟨"a", "LOGS", 2, false⟩]
          (fun _ => true) (fun _ => false))).compressed ∧
      "b" ∈ (runSeal "b" (openStream "b" ⟨[], [], [], ["a"]⟩)
        (sealEvents [⟨"a", "LOGS", 2, false⟩]
          (fun _ => true) (fun _ => false))).manifestEntries) := by
  have h := compress_and_move_seal_order [⟨"a", "LOGS", 2, false⟩]
    (fun _ => true) (fun _ => false) ⟨[], [], [], ["a"]⟩ "b" (by decide)
  exact ⟨h.1, h.2.1, h.2.2⟩

/-- Counterexample to C2 as stated: one staged item whose tar addition
**failed** (`addOk = false`) is nonetheless deleted by the deletion phase
(`delOk = true`): after sealing, the original `x` is gone although it was
never written to the archive. -/
theorem compress_and_move_deletes_uncompressed :
    (SealEvent.tarAdd "x" false ∈
      sealEvents [⟨"x", "LOGS", 1, false⟩] (fun _ => false) (fun _ => true)) ∧
    (SealEvent.deleteOriginal "x" true ∈
      sealEvents [⟨"x", "LOGS", 1, false⟩] (fun _ => false) (fun _ => true)) ∧
    "x" ∉ (runSeal "b" (openStream "b" ⟨[], [], [], ["x"]⟩)
      (sealEvents [⟨"x", "LOGS", 1, false⟩]
        (fun _ => false) (fun _ => true))).originals := by
  refine ⟨by decide, by decide, by decide⟩

/-! ## `TrashManager.compress_and_move` — staging-list lifecycle
(lines 116-227) -/

/-- The staging-list behaviour of `compress_and_move`: returns the success
flag and the `items_to_trash` list after the call. `confirm` is the keyword
argument; `userAccepts` models the interactive confirmation read when
`confirm` is false (lines 122-128); `topOk` models whether the `try` block
(lines 130-223) runs to completion.  The list is reset only on line 221,
immediately before `return True`. -/
def compressAndMoveStaging (items : List TrashItem)
    (confirm userAccepts topOk : Bool) : Bool × List TrashItem :=
  if items.isEmpty then (false, items)
  else if ¬confirm ∧ ¬userAccepts then (false, items)
  else if topOk then (true, [])
  else (false, items)

/-- Counterexample to C6 as stated: a non-empty staged list sealed with a
top-level failure (`topOk = false`) returns `false` and leaves the staging
list **unchanged** (not empty). -/
theorem compress_and_move_staging_counterexample :
    (compressAndMoveStaging [⟨"x", "LOGS", 1, false⟩] true true false).1
        = false ∧
    (compressAndMoveStaging [⟨"x", "LOGS", 1, false⟩] true true false).2
        ≠ [] := by
  exact ⟨by decide, by decide⟩

/-- **C6 (amended).** For a non-empty staged list, the staging list is
cleared iff the seal returns success; on any failure (user decline or
top-level error) the staged items are retained unchanged, so a failed seal
can be retried by calling seal again without re-staging. -/
theorem compress_and_move_staging_spec (items : List TrashItem)
    (confirm userAccepts topOk : Bool) (hne : items ≠ []) :
    ((compressAndMoveStaging items confirm userAccepts topOk).1 = true →
      (compressAndMoveStaging items confirm userAccepts topOk).2 = []) ∧
    ((compressAndMoveStaging items confirm userAccepts topOk).1 = false →
      (compressAndMoveStaging items confirm userAccepts topOk).2 = items) := by
  have hne' : items.isEmpty = false := by
    cases items with
    | nil => exact absurd rfl hne
    | cons a l => rfl
  unfold compressAndMoveStaging
  rw [hne']
  simp only [Bool.false_eq_true, if_false]
  by_cases h1 : ¬confirm ∧ ¬userAccepts
  · rw [if_pos h1]
    exact ⟨fun h => by simp at h, fun _ => rfl⟩
  · rw [if_neg h1]
    by_cases h2 : topOk
    · rw [if_pos h2]
      exact ⟨fun _ => rfl, fun h => by simp at h⟩
    · rw [if_neg h2]
      exact ⟨fun h => by simp at h, fun _ => rfl⟩

/-- Concrete instance of C6 (amended): sealing one staged item with
confirmation and a clean run clears the staging list. -/
theorem compress_and_move_staging_spec_witness :
    ([⟨"x", "LOGS", 1, false⟩] : List TrashItem) ≠ [] ∧
    ((compressAndMoveStaging [⟨"x", "LOGS", 1, false⟩] true true true).1 = true →
      (compressAndMoveStaging [⟨"x", "LOGS", 1, false⟩] true true true).2 = []) ∧
    ((compressAndMoveStaging [⟨"x", "LOGS", 1, false⟩] true true true).1 = false →
      (compressAndMoveStaging [⟨"x", "LOGS", 1, false⟩] true true true).2
          = [⟨"x", "LOGS", 1, false⟩]) :=
  ⟨by decide, compress_and_move_staging_spec
    [⟨"x", "LOGS", 1, false⟩] true true true (by decide)⟩

/-! ## `ArchiveManager.execute_move` (archive_manager.py, lines 273-364) -/

/-- One prepared candidate file of a move operation. -/
structure MoveFileInfo where
  path : String
  ftype : String
  category : String
  subdir : String
  size : Nat
deriving DecidableEq, Repr

/-- Destination directory convention of `execute_move`
(archive_manager.py lines 304-311). -/
def destDirOf (operationId : String) (f : MoveFileInfo) : String :=
  if f.ftype = "report" then
    operationId ++ "/reports/" ++ f.category ++ "/" ++ f.subdir
  else if f.ftype = "backup" then operationId ++ "/backups"
  else operationId ++ "/other"

/-- The observable outcome of `execute_move`. -/
structure ExecResult where
  success : Bool
  movedFiles : List MoveFileInfo
  errors : List String
  dirCreated : Bool
  metadataWritten : Bool
  indexAppended : Bool
deriving DecidableEq, Repr

/-- `ArchiveManager.execute_move` (lines 273-364). Oracles: `prepared`
models `self.current_operation is not None` (line 275); `confirmed` the
`confirm` flag or the interactive acceptance (lines 279-284); `mkdirOk` the
operation-directory creation (line 294); `moveOk f` the per-file `try` block
(lines 300-328), whose failure is caught and appended to `errors`; `metaOk`
the `metadata.json` write (lines 341-343).  `_update_archives_index` and
`increment_usage` swallow their own exceptions (lines 388-389 and
storage_manager.py lines 232-233) and cannot fail the call. -/
def execute_move (prepared confirmed mkdirOk : Bool)
    (files : List MoveFileInfo) (moveOk : MoveFileInfo → Bool)
    (metaOk : Bool) : ExecResult :=
  if ¬prepared then ⟨false, [], [], false, false, false⟩
  else if ¬confirmed then ⟨false, [], [], false, false, false⟩
  else if ¬mkdirOk then ⟨false, [], [], false, false, false⟩
  else
    let moved := files.filter moveOk
    let errs := (files.filter (fun f => !moveOk f)).map
      (fun f => "Erro ao mover " ++ f.path)
    if metaOk then ⟨true, moved, errs, true, true, true⟩
    else ⟨false, moved, errs, true, false, false⟩

/-- **C3.** During execute of a prepared, confirmed operation: every
per-file failure is recorded in the error list and every other move still
happens (no abort); the call returns success iff the operation directory and
its `metadata.json` were written; and the overall result flag is independent
of which (or how many) per-file moves failed. -/
theorem execute_move_partial_failure_spec (mkdirOk metaOk : Bool)
    (files : List MoveFileInfo) (moveOk : MoveFileInfo → Bool) :
    (mkdirOk = true →
      (execute_move true true mkdirOk files moveOk metaOk).movedFiles
          = files.filter moveOk ∧
      (execute_move true true mkdirOk files moveOk metaOk).errors
          = (files.filter (fun f => !moveOk f)).map
              (fun f => "Erro ao mover " ++ f.path)) ∧
    ((execute_move true true mkdirOk files moveOk metaOk).success = true ↔
      ((execute_move true true mkdirOk files moveOk metaOk).dirCreated = true ∧
        (execute_move true true mkdirOk files moveOk metaOk).metadataWritten
          = true)) ∧
    (∀ moveOk2 : MoveFileInfo → Bool,
      (execute_move true true mkdirOk files moveOk metaOk).success
        = (execute_move true true mkdirOk files moveOk2 metaOk).success) := by
  cases mkdirOk with
  | false =>
    refine ⟨fun h => by simp at h, ?_, ?_⟩
    · simp [execute_move]
    · intro moveOk2
      simp [execute_move]
  | true =>
    cases metaOk with
    | false =>
      refine ⟨fun _ => ⟨rfl, rfl⟩, ?_, fun moveOk2 => rfl⟩
      simp [execute_move]
    | true =>
      refine ⟨fun _ => ⟨rfl, rfl⟩, ?_, fun moveOk2 => rfl⟩
      simp [execute_move]

/-- Concrete instance of C3: two candidates, the first move fails — the
second is still moved, the error is recorded, and the operation reports
success. -/
theorem execute_move_partial_failure_spec_witness :
    ((execute_move true true true
        [⟨"a", "report", "c", "html", 1⟩, ⟨"b", "backup", "", "", 2⟩]
        (fun f => f.path ≠ "a") true).movedFiles
        = [⟨"b", "backup", "", "", 2⟩] ∧
      (execute_move true true true
        [⟨"a", "report", "c", "html", 1⟩, ⟨"b", "backup", "", "", 2⟩]
        (fun f => f.path ≠ "a") true).errors = ["Erro ao mover a"]) ∧
    ((execute_move true true true
        [⟨"a", "report", "c", "html", 1⟩, ⟨"b", "backup", "", "", 2⟩]
        (fun f => f.path ≠ "a") true).success = true ↔
      ((execute_move true true true
        [⟨"a", "report", "c", "html", 1⟩, ⟨"b", "backup", "", "", 2⟩]
        (fun f => f.path ≠ "a") true).dirCreated = true ∧
        (execute_move true true true
        [⟨"a", "report", "c", "html", 1⟩, ⟨"b", "backup", "", "", 2⟩]
        (fun f => f.path ≠ "a") true).metadataWritten = true)) := by
  have h := execute_move_partial_failure_spec true true
    [⟨"a", "report", "c", "html", 1⟩, ⟨"b", "backup", "", "", 2⟩]
    (fun f => f.path ≠ "a")
  refine ⟨?_, h.2.1⟩
  have h1 := h.1 rfl
  refine ⟨?_, ?_⟩
  · rw [h1.1]
    decide
  · rw [h1.2]
    decide

/-! ## `RestoreManager.restore_from_trash` and `list_trash`
(restore_manager.py, lines 60-89 and 250-288) -/

/-- One Trash Manifest entry, as consulted by listing. -/
structure ManifestEntry where
  filename : String
  created_at : String
deriving DecidableEq, Repr

/-- The trash store state as touched by restoring. -/
structure TrashState where
  compressedFiles : List String
  manifest : List ManifestEntry
  recovered : List String
deriving DecidableEq, Repr

/-- `sorted(items, key=lambda x: x.get('created_at',''), reverse=True)`
(line 73). -/
def descCreated (a b : ManifestEntry) : Prop := b.created_at ≤ a.created_at

instance : DecidableRel descCreated :=
  fun a b => inferInstanceAs (Decidable (b.created_at ≤ a.created_at))

instance : IsTotal ManifestEntry descCreated :=
  ⟨fun a b => le_total b.created_at a.created_at⟩

instance : IsTrans ManifestEntry descCreated :=
  ⟨fun _ _ _ h1 h2 => le_trans h2 h1⟩

/-- `RestoreManager.list_trash` (lines 60-89): the filenames printed, most
recent first, capped at `limit`. -/
def list_trash (limit : Nat) (st : TrashState) : List String :=
  ((st.manifest.insertionSort descCreated).take limit).map
    (fun e => e.filename)

/-- `RestoreManager.restore_from_trash` (lines 250-288): missing bundle →
`false` with no change; otherwise the bundle is decompressed into a fresh
destination (`extractOk` models the tar read succeeding).  The function
reads the compressed file and writes only into the destination; it touches
neither the compressed bundle nor the manifest. -/
def restore_from_trash (st : TrashState) (filename : String)
    (extractOk : Bool) : Bool × TrashState :=
  if ¬ (filename ∈ st.compressedFiles) then (false, st)
  else if extractOk then
    (true, { st with recovered := st.recovered ++ [filename] })
  else (false, st)

/-- **C7.** `restore_from_trash` never deletes or modifies the compressed
bundle file and never removes its manifest entry: the compressed store and
the manifest are unchanged, the trash listing after the call is identical to
before, and after a successful restore the bundle is still present. -/
theorem restore_from_trash_preserves_bundle (st : TrashState)
    (filename : String) (extractOk : Bool) :
    ((restore_from_trash st filename extractOk).2.compressedFiles
        = st.compressedFiles) ∧
    ((restore_from_trash st filename extractOk).2.manifest = st.manifest) ∧
    (∀ limit, list_trash limit (restore_from_trash st filename extractOk).2
        = list_trash limit st) ∧
    ((restore_from_trash st filename extractOk).1 = true →
      filename ∈ (restore_from_trash st filename extractOk).2.compressedFiles) :=
  by
  have hcomp : (restore_from_trash st filename extractOk).2.compressedFiles
      = st.compressedFiles := by
    unfold restore_from_trash
    split_ifs <;> rfl
  have hman : (restore_from_trash st filename extractOk).2.manifest
      = st.manifest := by
    unfold restore_from_trash
    split_ifs <;> rfl
  refine ⟨hcomp, hman, ?_, ?_⟩
  · intro limit
    unfold list_trash
    rw [hman]
  · intro hsucc
    rw [hcomp]
    by_contra hmem
    have : (restore_from_trash st filename extractOk).1 = false := by
      unfold restore_from_trash
      rw [if_pos hmem]
    rw [hsucc] at this
    simp at this

/-- Concrete instance of C7 (spec scenario): restoring an existing bundle
succeeds and the bundle is still in the manifest listing afterwards. -/
theorem restore_from_trash_preserves_bundle_witness :
    ((restore_from_trash ⟨["b.tar.gz"], [⟨"b.tar.gz", "2025"⟩], []⟩
        "b.tar.gz" true).1 = true) ∧
    ((restore_from_trash ⟨["b.tar.gz"], [⟨"b.tar.gz", "2025"⟩], []⟩
        "b.tar.gz" true).2.manifest = [⟨"b.tar.gz", "2025"⟩]) ∧
    ("b.tar.gz" ∈ (restore_from_trash
        ⟨["b.tar.gz"], [⟨"b.tar.gz", "2025"⟩], []⟩
        "b.tar.gz" true).2.compressedFiles) := by
  have h := restore_from_trash_preserves_bundle
    ⟨["b.tar.gz"], [⟨"b.tar.gz", "2025"⟩], []⟩ "b.tar.gz" true
  exact ⟨by decide, h.2.1, h.2.2.2 (by decide)⟩

/-! ## `StorageManager.initialize_storage` (storage_manager.py, lines
24-150) -/

/-- `config.json` default document (lines 63-70). -/
structure ConfigDoc where
  storage_path : String
  initialized_at : String
  version : String
  auto_cleanup_archives_days : Nat
  auto_cleanup_trash_days : Nat
  compression_level : Nat
deriving DecidableEq, Repr

/-- One per-category retention setting (lines 39-60). -/
inductive PolicySetting where
  | keepDays (n : Nat) (description : String)
  | keepCount (n : Nat) (description : String)
  | deleteAlways (description : String)
deriving DecidableEq, Repr

/-- `usage.json` document (lines 116-122). -/
structure UsageDoc where
  last_updated : String
  total_operations : Nat
  total_moved_mb : ℚ
  total_trashed_mb : ℚ
deriving DecidableEq, Repr

/-- `index_archives.json` document (lines 126-130): operation summaries plus
a timestamp. -/
structure ArchIndexDoc where
  operations : List String
  last_updated : String
deriving DecidableEq, Repr

/-- `manifest_trash.json` document (lines 134-138). -/
structure ManifestDoc where
  items : List ManifestEntry
  last_updated : String
deriving DecidableEq, Repr

/-- `self.default_policies` (lines 39-60). -/
def default_policies : List (String × PolicySetting) :=
  [("reports", PolicySetting.keepDays 15
      "Relatórios - mantém últimos 15 dias no sistema principal"),
   ("backups", PolicySetting.keepCount 2
      "Backups - mantém apenas os 2 mais recentes de cada categoria"),
   ("logs", PolicySetting.keepDays 7 "Logs do sistema - mantém últimos 7 dias"),
   ("node_modules", PolicySetting.keepDays 30
      "Node modules - move projetos inativos há mais de 30 dias"),
   ("caches", PolicySetting.deleteAlways "Caches - deleta sempre (não arquiva)")]

/-- `self.default_config` (lines 63-70); `now` is `datetime.now()`. -/
def default_config (storagePath now : String) : ConfigDoc :=
  ⟨storagePath, now, "1.0.0", 90, 180, 9⟩

def default_usage (now : String) : UsageDoc := ⟨now, 0, 0, 0⟩

def default_archIndex (now : String) : ArchIndexDoc := ⟨[], now⟩

def default_manifest (now : String) : ManifestDoc := ⟨[], now⟩

/-- The storage filesystem as touched by `initialize_storage`: whether the
configured root exists (mounted), the directories created under it, and the
three registries plus the two indices (absent file ↔ `none`). -/
structure StorageFS where
  rootExists : Bool
  dirs : List String
  configDoc : Option ConfigDoc
  policiesDoc : Option (List (String × PolicySetting))
  usageDoc : Option UsageDoc
  archivesIndexDoc : Option ArchIndexDoc
  trashManifestDoc : Option ManifestDoc
deriving DecidableEq, Repr

/-- The five directories created (lines 88-94). -/
def storageDirs : List String :=
  ["archives", "trash/compressed", "trash/metadata", "recovery",
   ".storage-config"]

/-- `dir_path.mkdir(parents=True, exist_ok=True)` guarded by
`if not dir_path.exists()` (lines 96-98). -/
def ensureDir (ds : List String) (d : String) : List String :=
  if d ∈ ds then ds else ds ++ [d]

/-- `StorageManager.initialize_storage` (lines 72-150): returns `False` if
the root does not exist; otherwise creates each missing directory and writes
each registry/index only when its file is absent (`if not ....exists()`,
lines 106-140).  `now` is the timestamp used to build the defaults. -/
def init_storage (storagePath now : String) (fs : StorageFS) :
    Bool × StorageFS :=
  if ¬fs.rootExists then (false, fs)
  else
    (true,
      { fs with
        dirs := storageDirs.foldl ensureDir fs.dirs
        configDoc := some (fs.configDoc.getD (default_config storagePath now))
        policiesDoc := some (fs.policiesDoc.getD default_policies)
        usageDoc := some (fs.usageDoc.getD (default_usage now))
        archivesIndexDoc :=
          some (fs.archivesIndexDoc.getD (default_archIndex now))
        trashManifestDoc :=
          some (fs.trashManifestDoc.getD (default_manifest now)) })

private lemma mem_ensureDir (ds : List String) (d x : String) (hx : x ∈ ds) :
    x ∈ ensureDir ds d := by
  unfold ensureDir
  split_ifs
  · exact hx
  · exact List.mem_append_left _ hx

private lemma mem_foldl_ensureDir_of_mem (xs : List String) :
    ∀ (ds : List String) (x : String), x ∈ ds →
      x ∈ xs.foldl ensureDir ds := by
  induction xs with
  | nil => intro ds x hx; exact hx
  | cons a xs ih =>
    intro ds x hx
    exact ih (ensureDir ds a) x (mem_ensureDir ds a x hx)

private lemma mem_foldl_ensureDir_self (xs : List String) :
    ∀ (ds : List String) (x : String), x ∈ xs →
      x ∈ xs.foldl ensureDir ds := by
  induction xs with
  | nil => intro ds x hx; simp at hx
  | cons a xs ih =>
    intro ds x hx
    rw [List.foldl_cons]
    rcases List.mem_cons.mp hx with h | h
    · subst h
      apply mem_foldl_ensureDir_of_mem
      unfold ensureDir
      split_ifs with hmem
      · exact hmem
      · exact List.mem_append_right _ (by simp)
    · exact ih _ x h

private lemma foldl_ensureDir_of_all_mem (xs : List String) :
    ∀ ds : List String, (∀ d ∈ xs, d ∈ ds) → xs.foldl ensureDir ds = ds := by
  induction xs with
  | nil => intro ds _; rfl
  | cons a xs ih =>
    intro ds h
    have ha : ensureDir ds a = ds := by
      unfold ensureDir
      rw [if_pos (h a (by simp))]
    rw [List.foldl_cons, ha]
    exact ih ds (fun d hd => h d (by simp [hd]))

private lemma ensureDir_nodup (ds : List String) (d : String)
    (h : ds.Nodup) : (ensureDir ds d).Nodup := by
  unfold ensureDir
  split_ifs with hmem
  · exact h
  · simpa [List.nodup_append] using ⟨h, hmem⟩

private lemma foldl_ensureDir_nodup (xs : List String) :
    ∀ ds : List String, ds.Nodup → (xs.foldl ensureDir ds).Nodup := by
  induction xs with
  | nil => intro ds h; exact h
  | cons a xs ih => intro ds h; exact ih _ (ensureDir_nodup ds a h)

/-- **C8.** Storage initialization is idempotent: on an existing root, a
second `initialize_storage` (even at a later timestamp) succeeds and leaves
the whole store state — all three registries, both indices and the directory
list — exactly as after the first call; registries that already exist are
never overwritten with defaults, and no duplicate directories are
created. -/
theorem init_storage_idempotent (storagePath now1 now2 : String)
    (fs : StorageFS) (hroot : fs.rootExists = true) :
    ((init_storage storagePath now2
        (init_storage storagePath now1 fs).2).2
      = (init_storage storagePath now1 fs).2) ∧
    ((init_storage storagePath now2 (init_storage storagePath now1 fs).2).1
      = true) ∧
    (∀ c, fs.configDoc = some c →
      (init_storage storagePath now1 fs).2.configDoc = some c) ∧
    (∀ p, fs.policiesDoc = some p →
      (init_storage storagePath now1 fs).2.policiesDoc = some p) ∧
    (∀ u, fs.usageDoc = some u →
      (init_storage storagePath now1 fs).2.usageDoc = some u) ∧
    (∀ a, fs.archivesIndexDoc = some a →
      (init_storage storagePath now1 fs).2.archivesIndexDoc = some a) ∧
    (∀ m, fs.trashManifestDoc = some m →
      (init_storage storagePath now1 fs).2.trashManifestDoc = some m) ∧
    (fs.dirs.Nodup → (init_storage storagePath now1 fs).2.dirs.Nodup) := by
  have hroot' : ¬fs.rootExists = False := by simp [hroot]
  have h1 : init_storage storagePath now1 fs
      = (true,
        { fs with
          dirs := storageDirs.foldl ensureDir fs.dirs
          configDoc :=
            some (fs.configDoc.getD (default_config storagePath now1))
          policiesDoc := some (fs.policiesDoc.getD default_policies)
          usageDoc := some (fs.usageDoc.getD (default_usage now1))
          archivesIndexDoc :=
            some (fs.archivesIndexDoc.getD (default_archIndex now1))
          trashManifestDoc :=
            some (fs.trashManifestDoc.getD (default_manifest now1)) }) := by
    unfold init_storage
    rw [if_neg (by simp [hroot])]
  refine ⟨?_, ?_, ?_, ?_, ?_, ?_, ?_, ?_⟩
  · rw [h1]
    unfold init_storage
    rw [if_neg (by simp [hroot])]
    have hdirs : storageDirs.foldl ensureDir
        (storageDirs.foldl ensureDir fs.dirs)
        = storageDirs.foldl ensureDir fs.dirs :=
      foldl_ensureDir_of_all_mem storageDirs _
        (fun d hd => mem_foldl_ensureDir_self storageDirs fs.dirs d hd)
    simp [hdirs]
  · rw [h1]
    unfold init_storage
    rw [if_neg (by simp [hroot])]
  · intro c hc
    rw [h1]
    simp [hc]
  · intro p hp
    rw [h1]
    simp [hp]
  · intro u hu
    rw [h1]
    simp [hu]
  · intro a ha
    rw [h1]
    simp [ha]
  · intro m hm
    rw [h1]
    simp [hm]
  · intro hnd
    rw [h1]
    exact foldl_ensureDir_nodup storageDirs fs.dirs hnd

/-- Concrete instance of C8: a store whose config already exists and with no
directories yet. -/
theorem init_storage_idempotent_witness :
    ((init_storage "/mnt/storage" "t2"
        (init_storage "/mnt/storage" "t1"
          ⟨true, [], some ⟨"/mnt/storage", "t0", "1.0.0", 90, 180, 9⟩,
            none, none, none, none⟩).2).2
      = (init_storage "/mnt/storage" "t1"
          ⟨true, [], some ⟨"/mnt/storage", "t0", "1.0.0", 90, 180, 9⟩,
            none, none, none, none⟩).2) ∧
    ((init_storage "/mnt/storage" "t1"
        ⟨true, [], some ⟨"/mnt/storage", "t0", "1.0.0", 90, 180, 9⟩,
          none, none, none, none⟩).2.configDoc
      = some ⟨"/mnt/storage", "t0", "1.0.0", 90, 180, 9⟩) ∧
    ((init_storage "/mnt/storage" "t1"
        ⟨true, [], some ⟨"/mnt/storage", "t0", "1.0.0", 90, 180, 9⟩,
          none, none, none, none⟩).2.dirs.Nodup) := by
  have h := init_storage_idempotent "/mnt/storage" "t1" "t2"
    ⟨true, [], some ⟨"/mnt/storage", "t0", "1.0.0", 90, 180, 9⟩,
      none, none, none, none⟩ rfl
  exact ⟨h.1, h.2.2.1 _ rfl, h.2.2.2.2.2.2.2 (by decide)⟩

/-! ## `RestoreManager.restore_from_archive` — single-item restore
(restore_manager.py, lines 202-219) -/

/-- One file inside an executed operation directory, as seen by `os.walk`:
its directory path relative to the operation root, and its basename. -/
structure ArchFile where
  dir : String
  name : String
deriving DecidableEq, Repr

/-- Whether `pat` is a prefix of `s`, over characters. -/
def startsWithChars : List Char → List Char → Bool
  | [], _ => true
  | _ :: _, [] => false
  | p :: ps, c :: cs => p == c && startsWithChars ps cs

/-- Python `pat in s` (substring containment), over characters. -/
def containsChars (pat : List Char) : List Char → Bool
  | [] => startsWithChars pat []
  | c :: cs => startsWithChars pat (c :: cs) || containsChars pat cs

/-- `item_name.lower() in file.lower()` (line 209). -/
def nameMatches (itemName fileName : String) : Bool :=
  containsChars (itemName.toList.map Char.toLower)
    (fileName.toList.map Char.toLower)

example : nameMatches "X" "a_x_b.txt" = true := by decide

example : nameMatches "z" "a_x_b.txt" = false := by decide

/-- The source path of a walked file. -/
def srcPath (f : ArchFile) : String := f.dir ++ "/" ++ f.name

/-- `shutil.copy2(source, dest_path / file)` (lines 210-212): the
destination directory as a map basename ↦ copied-from source; copying to an
existing name replaces that file. -/
def copyOver (dest : List (String × String)) (name source : String) :
    List (String × String) :=
  (dest.filter (fun p => p.1 ≠ name)) ++ [(name, source)]

/-- The `item_name` branch of `RestoreManager.restore_from_archive`
(lines 202-219): walks every file of the operation directory in order,
copies each match into the **root** of the destination under its bare
filename, and reports whether anything matched. -/
def restore_single_item (itemName : String) (archFiles : List ArchFile) :
    Bool × List (String × String) :=
  (!(archFiles.filter (fun f => nameMatches itemName f.name)).isEmpty,
    (archFiles.filter (fun f => nameMatches itemName f.name)).foldl
      (fun d f => copyOver d f.name (srcPath f)) [])

private lemma lookup_eq_none_of_keys_ne (d : List (String × String))
    (n : String) (h : ∀ p ∈ d, p.1 ≠ n) : d.lookup n = none := by
  induction d with
  | nil => rfl
  | cons p d ih =>
    obtain ⟨k, v⟩ := p
    have hk : k ≠ n := fun he => h (k, v) (by simp) he
    rw [List.lookup_cons]
    have : (n == k) = false := by
      simp [Ne.symm hk]
    rw [this]
    exact ih (fun q hq => h q (by simp [hq]))

private lemma lookup_append_none (d1 d2 : List (String × String)) (n : String)
    (h : d1.lookup n = none) : (d1 ++ d2).lookup n = d2.lookup n := by
  induction d1 with
  | nil => rfl
  | cons p d1 ih =>
    obtain ⟨k, v⟩ := p
    rw [List.lookup_cons] at h
    rw [List.cons_append, List.lookup_cons]
    cases hnk : n == k with
    | true => rw [hnk] at h; simp at h
    | false =>
      rw [hnk] at h
      exact ih h

private lemma lookup_filter_ne (d : List (String × String)) (n m : String)
    (h : n ≠ m) : (d.filter (fun p => p.1 ≠ m)).lookup n = d.lookup n := by
  induction d with
  | nil => rfl
  | cons p d ih =>
    obtain ⟨k, v⟩ := p
    by_cases hk : k = m
    · have hfil : ((k, v) :: d).filter (fun p => p.1 ≠ m)
          = d.filter (fun p => p.1 ≠ m) := by
        simp [hk]
      rw [hfil, ih, List.lookup_cons]
      have : (n == k) = false := by simp [hk, h]
      rw [this]
    · have hfil : ((k, v) :: d).filter (fun p => p.1 ≠ m)
          = (k, v) :: d.filter (fun p => p.1 ≠ m) := by
        simp [hk]
      rw [hfil, List.lookup_cons, List.lookup_cons]
      cases hnk : n == k with
      | true => rfl
      | false => exact ih

private lemma lookup_copyOver_self (d : List (String × String))
    (n src : String) : (copyOver d n src).lookup n = some src := by
  unfold copyOver
  rw [lookup_append_none]
  · simp [List.lookup_cons]
  · apply lookup_eq_none_of_keys_ne
    intro p hp
    have := List.of_mem_filter hp
    simpa using this

private lemma lookup_copyOver_ne (d : List (String × String))
    (n src m : String) (h : m ≠ n) :
    (copyOver d n src).lookup m = d.lookup m := by
  unfold copyOver
  cases hd : (d.filter (fun p => p.1 ≠ n)).lookup m with
  | none =>
    rw [lookup_append_none _ _ _ hd]
    rw [List.lookup_cons]
    have hmn : (m == n) = false := by simp [h]
    rw [hmn]
    rw [← lookup_filter_ne d m n h, hd]
    rfl
  | some v =>
    have h1 : (d.filter (fun p => p.1 ≠ n) ++ [(n, src)]).lookup m = some v := by
      clear h
      induction d with
      | nil => simp [List.lookup_nil] at hd
      | cons p d ih =>
        obtain ⟨k, v2⟩ := p
        by_cases hk : k = n
        · have hfil : ((k, v2) :: d).filter (fun p => p.1 ≠ n)
              = d.filter (fun p => p.1 ≠ n) := by simp [hk]
          rw [hfil] at hd ⊢
          exact ih hd
        · have hfil : ((k, v2) :: d).filter (fun p => p.1 ≠ n)
              = (k, v2) :: d.filter (fun p => p.1 ≠ n) := by simp [hk]
          rw [hfil] at hd ⊢
          rw [List.lookup_cons] at hd
          rw [List.cons_append, List.lookup_cons]
          cases hmk : m == k with
          | true => rw [hmk] at hd; exact hd
          | false =>
            rw [hmk] at hd
            exact ih hd
    rw [h1, ← lookup_filter_ne d m n h, hd]

private lemma getLast?_cons_of_some {α : Type} (a g : α) (l : List α)
    (h : l.getLast? = some g) : (a :: l).getLast? = some g := by
  cases l with
  | nil => simp at h
  | cons b l => rw [List.getLast?_cons_cons]; exact h

/-- The surviving source for basename `n` after the copy loop, given the
destination state `dflt` for `n` before the loop. -/
def lastMatchSrc (ms : List ArchFile) (n : String) (dflt : Option String) :
    Option String :=
  match (ms.filter (fun f => f.name == n)).getLast? with
  | some g => some (srcPath g)
  | none => dflt

private lemma foldl_copyOver_lookup (ms : List ArchFile) :
    ∀ (d : List (String × String)) (n : String),
      (ms.foldl (fun d f => copyOver d f.name (srcPath f)) d).lookup n
        = lastMatchSrc ms n (d.lookup n) := by
  induction ms with
  | nil => intro d n; rfl
  | cons f ms ih =>
    intro d n
    rw [List.foldl_cons, ih]
    cases hfn : f.name == n with
    | true =>
      have hfe : f.name = n := by simpa using hfn
      subst hfe
      have hsel : (copyOver d f.name (srcPath f)).lookup f.name
          = some (srcPath f) := lookup_copyOver_self d f.name (srcPath f)
      rw [hsel]
      unfold lastMatchSrc
      have hfil : (f :: ms).filter (fun g => g.name == f.name)
          = f :: ms.filter (fun g => g.name == f.name) := by
        simp
      rw [hfil]
      cases hlast : (ms.filter (fun g => g.name == f.name)).getLast? with
      | some g => rw [getLast?_cons_of_some f g _ hlast]
      | none =>
        have : ms.filter (fun g => g.name == f.name) = [] :=
          List.getLast?_eq_none_iff.mp hlast
        rw [this]
        rfl
    | false =>
      have hne : n ≠ f.name := by
        intro he
        rw [he] at hfn
        simp at hfn
      rw [lookup_copyOver_ne d f.name (srcPath f) n hne]
      unfold lastMatchSrc
      have hfil : (f :: ms).filter (fun g => g.name == n)
          = ms.filter (fun g => g.name == n) := by
        simp [hfn]
      rw [hfil]

private lemma foldl_copyOver_mem (ms : List ArchFile) :
    ∀ (d : List (String × String)) (p : String × String),
      p ∈ ms.foldl (fun d f => copyOver d f.name (srcPath f)) d →
        p ∈ d ∨ ∃ f ∈ ms, p = (f.name, srcPath f) := by
  induction ms with
  | nil => intro d p hp; exact Or.inl hp
  | cons f ms ih =>
    intro d p hp
    rw [List.foldl_cons] at hp
    rcases ih _ p hp with h | ⟨g, hg, hpg⟩
    · unfold copyOver at h
      rcases List.mem_append.mp h with h | h
      · exact Or.inl (List.mem_of_mem_filter h)
      · right
        exact ⟨f, by simp, by simpa using h⟩
    · right
      exact ⟨g, by simp [hg], hpg⟩

private lemma foldl_copyOver_nodup_keys (ms : List ArchFile) :
    ∀ d : List (String × String), (d.map Prod.fst).Nodup →
      ((ms.foldl (fun d f => copyOver d f.name (srcPath f)) d).map
        Prod.fst).Nodup := by
  induction ms with
  | nil => intro d h; exact h
  | cons f ms ih =>
    intro d h
    rw [List.foldl_cons]
    apply ih
    unfold copyOver
    rw [List.map_append]
    have hk : (d.filter (fun p => p.1 ≠ f.name)).map Prod.fst
        = (d.map Prod.fst).filter (fun k => k ≠ f.name) := by
      rw [List.filter_map]
      rfl
    rw [hk]
    simp only [List.map_cons, List.map_nil]
    rw [List.nodup_append]
    refine ⟨List.Nodup.filter _ h, by simp, ?_⟩
    intro a ha hmem
    have h2 := (List.mem_filter.mp ha).2
    have ha2 : a = f.name := by simpa using hmem
    rw [ha2] at h2
    simp at h2

/-- **C10.** Single-item restore copies every matching file directly into
the root of the destination, discarding its subdirectory path within the
operation: every destination entry is keyed by the bare basename of a
matching file; basenames at the destination are unique; the surviving
content for a basename is the **last** matching file with that basename in
walk order (the later copy overwrites the earlier); and in the concrete
two-file scenario with a shared basename in different subdirectories only
one file exists afterwards, the later one. -/
theorem restore_single_item_flattens (itemName : String)
    (archFiles : List ArchFile) :
    (∀ p ∈ (restore_single_item itemName archFiles).2,
      ∃ f, f ∈ archFiles ∧ nameMatches itemName f.name = true ∧
        p.1 = f.name ∧ p.2 = srcPath f) ∧
    (((restore_single_item itemName archFiles).2.map Prod.fst).Nodup) ∧
    (∀ n, (restore_single_item itemName archFiles).2.lookup n
        = ((archFiles.filter (fun f => nameMatches itemName f.name)).filter
            (fun f => f.name == n)).getLast?.map srcPath) ∧
    (restore_single_item "x"
        [⟨"reports/c/html", "x.txt"⟩, ⟨"backups", "x.txt"⟩]
      = (true, [("x.txt", "backups/x.txt")])) := by
  refine ⟨?_, ?_, ?_, by decide⟩
  · intro p hp
    have h := foldl_copyOver_mem
      (archFiles.filter (fun f => nameMatches itemName f.name)) [] p hp
    rcases h with h | ⟨f, hf, hpf⟩
    · simp at h
    · refine ⟨f, List.mem_of_mem_filter hf, (List.mem_filter.mp hf).2, ?_, ?_⟩
      · rw [hpf]
      · rw [hpf]
  · exact foldl_copyOver_nodup_keys _ [] (by simp)
  · intro n
    have h := foldl_copyOver_lookup
      (archFiles.filter (fun f => nameMatches itemName f.name)) [] n
    show ((archFiles.filter (fun f => nameMatches itemName f.name)).foldl
        (fun d f => copyOver d f.name (srcPath f)) []).lookup n = _
    rw [h]
    unfold lastMatchSrc
    cases hlast : ((archFiles.filter
        (fun f => nameMatches itemName f.name)).filter
          (fun f => f.name == n)).getLast? with
    | some g => rfl
    | none => rfl

/-- Concrete instance of C10: the two-file scenario, with the general
conclusions evaluated on it. -/
theorem restore_single_item_flattens_witness :
    (∀ p ∈ (restore_single_item "x"
        [⟨"reports/c/html", "x.txt"⟩, ⟨"backups", "x.txt"⟩]).2,
      ∃ f, f ∈ ([⟨"reports/c/html", "x.txt"⟩,
          ⟨"backups", "x.txt"⟩] : List ArchFile) ∧
        nameMatches "x" f.name = true ∧ p.1 = f.name ∧ p.2 = srcPath f) ∧
    ((restore_single_item "x"
        [⟨"reports/c/html", "x.txt"⟩, ⟨"backups", "x.txt"⟩]).2.map
          Prod.fst).Nodup ∧
    ((restore_single_item "x"
        [⟨"reports/c/html", "x.txt"⟩, ⟨"backups", "x.txt"⟩]).2.lookup "x.txt"
      = some "backups/x.txt") := by
  have h := restore_single_item_flattens "x"
    [⟨"reports/c/html", "x.txt"⟩, ⟨"backups", "x.txt"⟩]
  refine ⟨h.1, h.2.1, ?_⟩
  rw [h.2.2.1 "x.txt"]
  decide

end StorageSpec
